import Mathlib

/-!
Shallow embedding of the core of lsviz (src/python/src/lsviz/main.py): the
FSNode tree with its dual child lists, the filter engine (FSNode.apply_filter),
the sort engine (FSNode.sort), the batched-fetch cursor (FSModel.canFetchMore,
FSModel.fetchMore, FSModel.rowCount) and the tree builder
(HdfsExplorer.load_hdfs_file) for a fresh load.

Modelling conventions:
- pathlib.Path values are modelled as lists of path segments (List String);
  the filesystem root (and the root node, FSNode(Path()) in the source) is the
  empty list.  The builder seeds its path lookup with the root at the empty
  list, matching node_map = dict with Path("/") mapped to the root.
- Python str.lower is modelled by lowerS below, Char.toLower character by
  character (ASCII; every concrete input used below is ASCII).  Python string
  comparison is by code points, modelled by charsLe below over Char.toNat.
- CPython list.sort with a key function first computes the key of every
  element in list order (so an unknown sort column raises ValueError exactly
  when the list is nonempty, before any element is moved), then stably sorts;
  reverse=True is a stable sort under the reversed comparisons.  A stable sort
  under a total preorder has a unique result, so it is modelled with
  List.insertionSort (which is stable) under the same comparator.
- Comparing a str key with an int key raises TypeError in Python, lazily,
  during the merge phase.  The model checks comparability of all key pairs
  eagerly (pairwiseB keyComp below) and fails with the same error class; on
  every list whose keys are pairwise comparable the two models agree (the sort
  succeeds with the same result), and theorem c10_size_sort_total proves keys
  are always pairwise comparable for the Size column, so the branch never
  fires there.
- In the source, visible_children holds references to the very objects held
  by all_children, so mutating a node reached through all_children is seen
  through visible_children as well.  In the pure model the two lists hold
  values.  The two operations that rewrite descendants, apply_filter and the
  builder, are modelled so that this never matters for any theorem below:
  apply_filter never reads visible_children (it rebuilds each visited
  visible_children from the rewritten all_children, exactly as the source
  recomputes it from the mutated-in-place children), and no theorem about
  built trees reads visible_children (nodePaths reads only all_children).
-/

/-- Qt.SortOrder restricted to the two values the source uses. -/
inductive SortOrder where
  | Ascending
  | Descending
deriving DecidableEq, Repr

/-- The Sorting dataclass of the source: a column index and a direction.
Column indices follow the Column IntEnum: Name = 0, Size = 1, Modified = 2,
Permissions = 3, Owner = 4. -/
structure Sorting where
  column : Int
  order : SortOrder
deriving DecidableEq, Repr

/-- Python substring test at the head of a character list. -/
def subAt : List Char → List Char → Bool
  | [], _ => true
  | _ :: _, [] => false
  | p :: ps, c :: cs => p == c && subAt ps cs

/-- Python substring containment (the operator pat in s) on character
lists: the empty pattern is contained in everything. -/
def subIn (pat : List Char) : List Char → Bool
  | [] => pat.isEmpty
  | c :: cs => subAt pat (c :: cs) || subIn pat cs

/-- Python substring containment on strings. -/
def subInS (pat s : String) : Bool := subIn pat.data s.data

/-- Python str.startswith on strings (a leading-substring test). -/
def startsB (pre s : String) : Bool := subAt pre.data s.data

/-- Python str.lower, character by character (ASCII; every concrete name
used below is ASCII). -/
def lowerS (s : String) : String := String.mk (s.data.map Char.toLower)

/-- FSNode of the source.  BATCH is a per-instance constant 10000 in the
source, modelled by the global constant BATCH below, so it is not a field. -/
inductive FSNode where
  | mk (path : List String) (name : String) (name_lower : String) (isdir : Bool)
       (size : Nat) (modified : String) (permissions : String) (owner : String)
       (all_children : List FSNode) (visible_children : List FSNode)
       (fetched_items : Nat) (current_sort_state : Option Sorting)

/-- The fixed batch size of FSNode (self.BATCH = 10000). -/
def BATCH : Nat := 10000

namespace FSNode

def path : FSNode → List String
  | .mk pa _ _ _ _ _ _ _ _ _ _ _ => pa

def name : FSNode → String
  | .mk _ n _ _ _ _ _ _ _ _ _ _ => n

def name_lower : FSNode → String
  | .mk _ _ nl _ _ _ _ _ _ _ _ _ => nl

def is_dir : FSNode → Bool
  | .mk _ _ _ d _ _ _ _ _ _ _ _ => d

def size : FSNode → Nat
  | .mk _ _ _ _ sz _ _ _ _ _ _ _ => sz

def modified : FSNode → String
  | .mk _ _ _ _ _ md _ _ _ _ _ _ => md

def permissions : FSNode → String
  | .mk _ _ _ _ _ _ pm _ _ _ _ _ => pm

def owner : FSNode → String
  | .mk _ _ _ _ _ _ _ ow _ _ _ _ => ow

def all_children : FSNode → List FSNode
  | .mk _ _ _ _ _ _ _ _ a _ _ _ => a

def visible_children : FSNode → List FSNode
  | .mk _ _ _ _ _ _ _ _ _ v _ _ => v

def fetched_items : FSNode → Nat
  | .mk _ _ _ _ _ _ _ _ _ _ fi _ => fi

def current_sort_state : FSNode → Option Sorting
  | .mk _ _ _ _ _ _ _ _ _ _ _ ss => ss

/-- FSNode.__init__ of the source: name is the final path segment, name_lower
its lower-cased copy, is_dir holds iff permissions is empty (synthetic
ancestors) or starts with the directory marker, both child lists start empty,
and fetched_items starts at BATCH regardless of how many children exist. -/
def mkNew (p : List String) (sz : Nat) (md : String) (pm : String) (ow : String) : FSNode :=
  let nm := p.getLast?.getD ""
  .mk p nm (lowerS nm) (pm == "" || startsB "d" pm) sz md pm ow [] [] BATCH none

/-- FSNode.append_child of the source: the child is appended to both shadow
lists and the cached sort state is invalidated. -/
def append_child : FSNode → FSNode → FSNode
  | .mk pa n nl d sz md pm ow all vis fi _, c =>
    .mk pa n nl d sz md pm ow (all ++ [c]) (vis ++ [c]) fi none

/-- Helper: replace visible_children and current_sort_state (what a
successful FSNode.sort call overwrites). -/
def setVisSort : FSNode → List FSNode → Option Sorting → FSNode
  | .mk pa n nl d sz md pm ow all _ fi _, vis, ss =>
    .mk pa n nl d sz md pm ow all vis fi ss

/-- Helper: replace fetched_items (what FSModel.fetchMore overwrites). -/
def setFetched : FSNode → Nat → FSNode
  | .mk pa n nl d sz md pm ow all vis _ ss, fi =>
    .mk pa n nl d sz md pm ow all vis fi ss

/-- Helper: replace all_children only.  Used by the builder when it rewrites
a child along the ancestor chain of an append; the source mutates the very
node object, so its parents see the change through all_children.  The stale
copies possibly held in ancestors visible_children are irrelevant here: no
theorem about built trees reads visible_children. -/
def setAll : FSNode → List FSNode → FSNode
  | .mk pa n nl d sz md pm ow _ vis fi ss, all =>
    .mk pa n nl d sz md pm ow all vis fi ss

end FSNode

/-- Python string comparison (code-point lexicographic) as a boolean
less-or-equal. -/
def charsLe : List Char → List Char → Bool
  | [], _ => true
  | _ :: _, [] => false
  | a :: as, b :: bs =>
    if a.toNat < b.toNat then true
    else if b.toNat < a.toNat then false
    else charsLe as bs

/-- String less-or-equal matching Python str comparison. -/
def strLe (a b : String) : Bool := charsLe a.data b.data

/-- The second component of a sort key in the source: a str for Name,
Modified, Permissions, Owner and for directories under Size, an int for
files under Size. -/
inductive SKey where
  | s (v : String)
  | n (v : Nat)
deriving DecidableEq, Repr

/-- Python comparison of the second key components.  The two cross-type arms
are arbitrary (strings before numbers): Python raises TypeError there
instead; sortNode guards every sort with the keyComp check below, and
pairwise comparability is proved to always hold for every column the source
accepts, so those arms never influence a successful sort. -/
def skeyLeB : SKey → SKey → Bool
  | .s a, .s b => strLe a b
  | .n a, .n b => a ≤ b
  | .s _, .n _ => true
  | .n _, .s _ => false

/-- Whether Python can compare two second components (same type). -/
def skeyComp : SKey → SKey → Bool
  | .s _, .s _ => true
  | .n _, .n _ => true
  | _, _ => false

/-- Python bool comparison: False is less than True. -/
def boolLt (a b : Bool) : Bool := !a && b

/-- Python tuple comparison of the (bool, str-or-int) sort keys, as a
less-or-equal. -/
def keyLeB : Bool × SKey → Bool × SKey → Bool
  | (b1, k1), (b2, k2) => if b1 = b2 then skeyLeB k1 k2 else boolLt b1 b2

/-- Whether Python can compare two full keys: distinct bool components are
decided on the bools alone, equal bool components require same-typed second
components. -/
def keyComp (a b : Bool × SKey) : Bool := a.1 != b.1 || skeyComp a.2 b.2

/-- Boolean pairwise check over a list. -/
def pairwiseB (f : α → α → Bool) : List α → Bool
  | [] => true
  | x :: xs => xs.all (f x) && pairwiseB f xs

/-- The sort_key closure of FSNode.sort: dir_first is the bool
(node.is_dir == reverse); then per column exactly as in the source.  The
final arm is never used: sortNode raises before building keys for an unknown
column. -/
def sortKeyF (column : Int) (rev : Bool) (node : FSNode) : Bool × SKey :=
  let dirFirst := node.is_dir == rev
  if column = 0 then (dirFirst, .s node.name_lower)
  else if column = 1 then
    (dirFirst, if node.is_dir then .s node.name_lower else .n node.size)
  else if column = 2 then (false, .s node.modified)
  else if column = 3 then (false, .s node.permissions)
  else if column = 4 then (false, .s node.owner)
  else (false, .s "")

/-- Whether a column index is one the source accepts. -/
def colKnown (c : Int) : Bool := c == 0 || c == 1 || c == 2 || c == 3 || c == 4

/-- The element comparison performed by list.sort(key=sort_key,
reverse=reverse): ascending compares keys left to right, descending is the
stable sort under the reversed comparison. -/
def sortLe (column : Int) (rev : Bool) (a b : FSNode) : Bool :=
  if rev then keyLeB (sortKeyF column rev b) (sortKeyF column rev a)
  else keyLeB (sortKeyF column rev a) (sortKeyF column rev b)

/-- FSNode.sort of the source.  Control flow: the cached-state guard returns
the node unchanged; otherwise for a known column the visible children are
stably sorted under sort_key and the state is recorded; for an unknown
column, CPython computes the key of each element in order before moving
anything, so the call raises ValueError exactly when visible_children is
nonempty, leaving the node untouched, and with no elements it succeeds
vacuously and still records the unknown spec.  The TypeError branch models
the str-int comparison failure (see skeyLeB); it is proved unreachable for
every known column. -/
def sortNode (n : FSNode) (sorting : Sorting) : Except String FSNode :=
  if n.current_sort_state = some sorting then Except.ok n
  else if colKnown sorting.column then
    if pairwiseB
        (fun a b =>
          keyComp (sortKeyF sorting.column (sorting.order == SortOrder.Descending) a)
            (sortKeyF sorting.column (sorting.order == SortOrder.Descending) b))
        n.visible_children then
      Except.ok (n.setVisSort
        (List.insertionSort
          (fun a b =>
            sortLe sorting.column (sorting.order == SortOrder.Descending) a b = true)
          n.visible_children)
        (some sorting))
    else Except.error "TypeError: not supported between instances of str and int"
  else if n.visible_children.isEmpty then
    Except.ok (n.setVisSort n.visible_children (some sorting))
  else
    Except.error ("Unknown column index " ++ toString sorting.column)

mutual
/-- FSNode.apply_filter of the source: visible_children is recomputed from
all_children (everything for the empty pattern, otherwise the children that
are directories or whose lower-cased name contains the pattern, in the same
relative order), and the recursion descends into every directory child,
visible or not.  The source computes the new visible list from the old child
references and then mutates the children in place; since the filter predicate
reads only name_lower and is_dir, which the recursion preserves, rewriting
the children first and filtering the rewritten list yields the same final
state. -/
def applyFilter (p : String) : FSNode → FSNode
  | .mk pa n nl d sz md pm ow all _vis fi ss =>
    let newAll := applyFilterL p all
    .mk pa n nl d sz md pm ow newAll
      (if p = "" then newAll
       else newAll.filter (fun c => subInS p c.name_lower || c.is_dir))
      fi ss

/-- Pointwise action of apply_filter on a child list: directory children are
rewritten recursively, file children are left alone. -/
def applyFilterL (p : String) : List FSNode → List FSNode
  | [] => []
  | c :: cs => (if c.is_dir then applyFilter p c else c) :: applyFilterL p cs
end

mutual
/-- All nodes of a tree: the node itself and, recursively, every node below
a member of all_children. -/
def treeNodes : FSNode → List FSNode
  | .mk pa n nl d sz md pm ow all vis fi ss =>
    .mk pa n nl d sz md pm ow all vis fi ss :: treeNodesL all

def treeNodesL : List FSNode → List FSNode
  | [] => []
  | c :: cs => treeNodes c ++ treeNodesL cs
end

mutual
/-- The paths of all nodes of a tree, with multiplicity. -/
def nodePaths : FSNode → List (List String)
  | .mk pa _ _ _ _ _ _ _ all _ _ _ => pa :: nodePathsL all

def nodePathsL : List FSNode → List (List String)
  | [] => []
  | c :: cs => nodePaths c ++ nodePathsL cs
end

/-- FSModel.rowCount of the source for a given parent node: the number of
materialized rows, min of the visible count and the fetch cursor. -/
def rowCount (n : FSNode) : Nat := min n.visible_children.length n.fetched_items

/-- FSModel.canFetchMore of the source for a valid parent index. -/
def canFetchMore (n : FSNode) : Bool := n.fetched_items < n.visible_children.length

/-- FSModel.fetchMore of the source: advance the cursor by BATCH, clamped to
the visible count, and signal insertion of the row range from the previous
cursor to the new cursor minus one (beginInsertRows arguments, as Python
ints). -/
def fetchMore (n : FSNode) : FSNode × Int × Int :=
  let prev := n.fetched_items
  let newF := min (n.fetched_items + BATCH) n.visible_children.length
  (n.setFetched newF, ((prev : Int), (newF : Int) - 1))

/-- A parsed entry record (the FSItem dict after the regex match): the
builder reads perms, owner, group, size, dt_mod and path.  Paths are lists
of segments; the replicas field is ignored by the builder. -/
structure Entry where
  perms : String
  owner : String
  group : String
  size : Nat
  dt_mod : String
  path : List String
deriving DecidableEq, Repr

/-- A tree address: the chain of positions inside successive all_children
lists.  Addresses are stable because the builder only ever appends. -/
abbrev Addr := List Nat

/-- Node lookup by address, descending through all_children. -/
def getAt : FSNode → Addr → Option FSNode
  | t, [] => some t
  | t, i :: rest =>
    match t.all_children[i]? with
    | some c => getAt c rest
    | none => none

/-- Append a child (via FSNode.append_child) at the node sitting at the given
address, rewriting the spine above it.  An address that does not resolve
leaves the tree unchanged; the builder only ever appends at addresses it has
proved valid. -/
def appendAt : FSNode → Addr → FSNode → FSNode
  | t, [], c => t.append_child c
  | t, i :: rest, c =>
    match t.all_children[i]? with
    | some ci => t.setAll (t.all_children.set i (appendAt ci rest c))
    | none => t

/-- The reversed parents chain of a path, as in path.parents reversed in the
source: every proper leading segment list, from the root (empty) up to the
direct parent. -/
def ancestors (p : List String) : List (List String) :=
  (List.range p.length).map (fun k => p.take k)

/-- The builder state: the tree under construction and the node_map
path-to-node lookup, modelled as an association list from paths to addresses
with the newest binding first (so lookups see the latest binding, like a
Python dict whose entries are overwritten in place). -/
structure BState where
  tree : FSNode
  nmap : List (List String × Addr)

/-- Lookup in the modelled node_map. -/
def findAddr (p : List String) : List (List String × Addr) → Option Addr
  | [] => none
  | (q, a) :: rest => if q = p then some a else findAddr p rest

/-- One step of the ancestor-resolution loop of load_hdfs_file, on the pair
of current state and current-node address.  This embeds the fresh-load run:
self.model is still None while the loop runs (the model is only constructed
after all entries are ingested), so _children_indices yields nothing and the
search of the current visible children for an existing node always misses;
an ancestor absent from node_map is therefore always synthesized as a
placeholder FSNode(parent, parent=cur) and appended to the current node. -/
def stepAnc (st : BState × Addr) (anc : List String) : BState × Addr :=
  let s := st.1
  let cur := st.2
  match findAddr anc s.nmap with
  | some a => (s, a)
  | none =>
    let idx := ((getAt s.tree cur).map (fun nd => nd.all_children.length)).getD 0
    let nd := FSNode.mkNew anc 0 "" "" ""
    let a := cur ++ [idx]
    ({ tree := appendAt s.tree cur nd, nmap := (anc, a) :: s.nmap }, a)

/-- Ingestion of one entry in load_hdfs_file: resolve (synthesizing where
needed) the ancestor chain starting from the root, then unconditionally
create the leaf node for the entry itself, record it in node_map (overwriting
any existing binding for that path) and append it to the resolved parent.
The collision search over cur_children present in the source is commented
out there; a colliding path therefore yields a second node. -/
def insertEntry (s : BState) (e : Entry) : BState :=
  let sc := (ancestors e.path).foldl stepAnc (s, [])
  let s1 := sc.1
  let cur := sc.2
  let idx := ((getAt s1.tree cur).map (fun nd => nd.all_children.length)).getD 0
  let leaf := FSNode.mkNew e.path e.size e.dt_mod e.perms (e.owner ++ ":" ++ e.group)
  { tree := appendAt s1.tree cur leaf, nmap := (e.path, cur ++ [idx]) :: s1.nmap }

/-- The root node of a fresh load: FSNode(Path()) in the source.  The root
path is modelled as the empty segment list (standing for both Path(".") and
the node_map key Path("/"): entry paths are absolute and nonempty, so neither
can collide with it). -/
def rootNew : FSNode := FSNode.mkNew [] 0 "" "" ""

/-- A fresh load_hdfs_file run over a list of parsed entries: the ingestion
loop breaks at index 300000, so only the first 300000 entries are processed;
node_map starts holding the root. -/
def loadEntries (entries : List Entry) : BState :=
  (entries.take 300000).foldl insertEntry { tree := rootNew, nmap := [([], [])] }

/-- Boolean leading-segments test: leadsB p q holds iff p is a leading
segment list (a prefix) of q. -/
def leadsB : List String → List String → Bool
  | [], _ => true
  | _ :: _, [] => false
  | a :: as, b :: bs => a == b && leadsB as bs

/-- The visible-children recomputation rule as the specification states it:
everything for the empty pattern, otherwise exactly the children that are
directories or whose lower-cased name contains the pattern, in the order of
all_children. -/
def visSpec (p : String) (l : List FSNode) : List FSNode :=
  if p = "" then l else l.filter (fun c => subInS p c.name_lower || c.is_dir)

/-- Well-formed tree check: every non-directory node has no children on
either list.  Trees built from inputs in which no entry arrives under a path
already occupied by a regular file satisfy this; the source tolerates the
violation (an entry attaches under whatever node occupies the path slot). -/
def wfTreeB (t : FSNode) : Bool :=
  (treeNodes t).all (fun nd => nd.is_dir || (nd.all_children.isEmpty && nd.visible_children.isEmpty))

/-- The Name-sort ordering the code actually produces between two adjacent
nodes: a file is never followed by a directory (folders form one contiguous
block placed first, in both directions), and inside a group (equal is_dir)
lower-cased names are ascending for Ascending and descending for
Descending. -/
def nameOrdOK (d : SortOrder) (a b : FSNode) : Prop :=
  (a.is_dir = false → b.is_dir = false) ∧
  (a.is_dir = b.is_dir →
    (match d with
     | SortOrder.Ascending => strLe a.name_lower b.name_lower
     | SortOrder.Descending => strLe b.name_lower a.name_lower) = true)

/-- The builder invariant: every node_map binding resolves to a node with
that path, the node_map key set coincides with the set of node paths, node
paths are pairwise distinct, every node path is the root or a nonempty
leading-segment list of some processed entry, and every processed entry has
its path in the tree. -/
structure BInv (s : BState) (done : List Entry) : Prop where
  mapValid : ∀ pr ∈ s.nmap, ∃ nd, getAt s.tree pr.2 = some nd ∧ nd.path = pr.1
  keysIff : ∀ p : List String, (∃ a, (p, a) ∈ s.nmap) ↔ p ∈ nodePaths s.tree
  nodup : (nodePaths s.tree).Nodup
  bound : ∀ p ∈ nodePaths s.tree, p = [] ∨ ∃ e ∈ done, p ≠ [] ∧ leadsB p e.path = true
  doneMem : ∀ e ∈ done, e.path ∈ nodePaths s.tree

/-- Demo directory child (lower-cased name d) for the Name-sort claims. -/
def c1dir : FSNode := FSNode.mkNew ["r", "d"] 0 "2024-01-01 00:00" "drwxr-xr-x" "u:g"

/-- Demo file child (lower-cased name f) for the Name-sort claims. -/
def c1file : FSNode := FSNode.mkNew ["r", "f"] 7 "2024-01-01 00:00" "-rw-r--r--" "u:g"

/-- Demo directory holding a file and a subdirectory, file first. -/
def c1node : FSNode :=
  ((FSNode.mkNew ["r"] 0 "" "drwxr-xr-x" "u:g").append_child c1file).append_child c1dir

/-- The result of descending Name sort on c1node: directory first. -/
def c1out : FSNode := c1node.setVisSort [c1dir, c1file] (some ⟨0, SortOrder.Descending⟩)

/-- Demo node for the fetched-count claim: a directory with one file child. -/
def c2node : FSNode :=
  (FSNode.mkNew [] 0 "" "" "").append_child
    (FSNode.mkNew ["b"] 5 "2024-01-01 00:00" "-rw-r--r--" "u:g")

/-- Entries with a duplicated path slot: the second entry collides with the
ancestor synthesized for the first. -/
def c3dup1 : Entry := ⟨"-rw-r--r--", "u", "g", 1, "2024-01-01 00:00", ["a", "b"]⟩

/-- The colliding second entry (its path a was already synthesized). -/
def c3dup2 : Entry := ⟨"drwxr-xr-x", "u", "g", 0, "2024-01-01 00:00", ["a"]⟩

/-- A collision-free entry. -/
def c3e1 : Entry := ⟨"-rw-r--r--", "u", "g", 1, "2024-01-01 00:00", ["a", "b"]⟩

/-- A second collision-free entry. -/
def c3e2 : Entry := ⟨"-rw-r--r--", "u", "g", 2, "2024-01-01 00:00", ["a", "c"]⟩

/-- An entry that creates a regular file at path a. -/
def c4aEntry : Entry := ⟨"-rw-r--r--", "u", "g", 1, "2024-01-01 00:00", ["a"]⟩

/-- An entry whose path lies below the file a, so the builder attaches it
under a non-directory node. -/
def c4bEntry : Entry := ⟨"-rw-r--r--", "u", "g", 2, "2024-01-01 00:00", ["a", "b"]⟩

/-- The tree of the two entries above after filtering with pattern zzz. -/
def c4bad : FSNode := applyFilter "zzz" (loadEntries [c4aEntry, c4bEntry]).tree

/-- A well-formed demo tree: a file child and a directory child holding a
file grandchild. -/
def c4tree : FSNode :=
  ((FSNode.mkNew [] 0 "" "" "").append_child
      (FSNode.mkNew ["a"] 1 "2024-01-01 00:00" "-rw-r--r--" "u:g")).append_child
    ((FSNode.mkNew ["d"] 0 "2024-01-01 00:00" "drwxr-xr-x" "u:g").append_child
      (FSNode.mkNew ["d", "x"] 1 "2024-01-01 00:00" "-rw-r--r--" "u:g"))

/-- Demo node with one visible child, for the unknown-column claim. -/
def c5node : FSNode :=
  (FSNode.mkNew ["x"] 0 "" "drwxr-xr-x" "u:g").append_child
    (FSNode.mkNew ["x", "y"] 0 "" "-rw-r--r--" "u:g")

/-- Demo node with no children at all. -/
def c5empty : FSNode := FSNode.mkNew ["e"] 0 "" "-rw-r--r--" "u:g"

/-- Demo file child named b for the sort-guard claim. -/
def c6f1 : FSNode := FSNode.mkNew ["r", "b"] 1 "2024-01-01 00:00" "-rw-r--r--" "u:g"

/-- Demo file child named a for the sort-guard claim. -/
def c6f2 : FSNode := FSNode.mkNew ["r", "a"] 2 "2024-01-01 00:00" "-rw-r--r--" "u:g"

/-- Demo directory holding the two files above, b first. -/
def c6node : FSNode :=
  ((FSNode.mkNew ["r"] 0 "" "drwxr-xr-x" "u:g").append_child c6f1).append_child c6f2

/-- The result of ascending Name sort on c6node. -/
def c6sorted : FSNode := c6node.setVisSort [c6f2, c6f1] (some ⟨0, SortOrder.Ascending⟩)

/-- Demo node with 12001 visible children and the initial cursor, matching
the batch-fetch scenario of the specification. -/
def c8big : FSNode :=
  FSNode.mk ["big"] "big" "big" true 0 "2024-01-01 00:00" "drwxr-xr-x" "u:g"
    (List.replicate 12001 (FSNode.mkNew ["big", "f"] 1 "2024-01-01 00:00" "-rw-r--r--" "u:g"))
    (List.replicate 12001 (FSNode.mkNew ["big", "f"] 1 "2024-01-01 00:00" "-rw-r--r--" "u:g"))
    10000 none

theorem setVisSort_state (n : FSNode) (v : List FSNode) (ss : Option Sorting) :
    (n.setVisSort v ss).current_sort_state = ss := by
  cases n
  rfl

theorem setVisSort_vis (n : FSNode) (v : List FSNode) (ss : Option Sorting) :
    (n.setVisSort v ss).visible_children = v := by
  cases n
  rfl

theorem setVisSort_all (n : FSNode) (v : List FSNode) (ss : Option Sorting) :
    (n.setVisSort v ss).all_children = n.all_children := by
  cases n
  rfl

/-- C9: every append_child call invalidates the parent cached sort state:
after appending any child to any node, current_sort_state is none (and the
child sits at the end of both shadow lists), so the node counts as unsorted
again. -/
theorem c9_append_child_resets_sort (n c : FSNode) :
    (n.append_child c).current_sort_state = none ∧
    (n.append_child c).all_children = n.all_children ++ [c] ∧
    (n.append_child c).visible_children = n.visible_children ++ [c] := by
  cases n
  exact ⟨rfl, rfl, rfl⟩

/-- C2 (amended): fetched_items may exceed the visible count: it is
initialized to the batch size 10000 regardless of how many children exist,
and apply_filter leaves it untouched (no re-clamping).  What stays bounded
is the displayed row count, min of the two, and the cursor after a fetchMore
call, which clamps to the visible count. -/
theorem c2_amended (pa : List String) (sz : Nat) (md pm ow : String)
    (p : String) (t n : FSNode) :
    (FSNode.mkNew pa sz md pm ow).fetched_items = BATCH ∧
    BATCH = 10000 ∧
    (applyFilter p t).fetched_items = t.fetched_items ∧
    rowCount n = min n.visible_children.length n.fetched_items ∧
    rowCount n ≤ n.visible_children.length ∧
    (fetchMore n).1.fetched_items ≤ n.visible_children.length := by
  refine ⟨rfl, rfl, ?_, rfl, Nat.min_le_left _ _, ?_⟩
  · cases t
    rfl
  · cases n
    exact Nat.min_le_right _ _

/-- C2 counterexample: the claim that fetched_items never exceeds the length
of visible_children, and that a shrinking filter re-clamps it, is false: a
node whose only child is filtered away keeps fetched_items at 10000 while
its visible_children is empty (apply_filter never touches fetched_items and
the cursor starts at BATCH). -/
theorem c2_counterexample :
    (applyFilter "zzz" c2node).visible_children.length
      < (applyFilter "zzz" c2node).fetched_items := by
  decide

/-- C8: one fetchMore call sets the cursor to the minimum of the previous
cursor plus BATCH and the visible count, hence never past the visible count;
the cursor is non-decreasing whenever the call is made in a state allowed by
canFetchMore (or, more generally, whenever the cursor is within bounds, which
holds after any first call); the inserted row range runs from the previous
cursor to the new cursor minus one; and with 12001 visible children and
cursor 10000 one call reaches 12001 signalling rows 10000 to 12000. -/
theorem c8_fetch_monotone (n : FSNode) :
    (fetchMore n).1.fetched_items = min (n.fetched_items + BATCH) n.visible_children.length ∧
    (fetchMore n).1.fetched_items ≤ n.visible_children.length ∧
    (canFetchMore n = true → n.fetched_items ≤ (fetchMore n).1.fetched_items) ∧
    (n.fetched_items ≤ n.visible_children.length →
      n.fetched_items ≤ (fetchMore n).1.fetched_items) ∧
    (fetchMore n).1.fetched_items ≤ (fetchMore (fetchMore n).1).1.fetched_items ∧
    (fetchMore n).2.1 = (n.fetched_items : Int) ∧
    (fetchMore n).2.2 = ((fetchMore n).1.fetched_items : Int) - 1 ∧
    (n.visible_children.length = 12001 → n.fetched_items = 10000 →
      (fetchMore n).1.fetched_items = 12001 ∧
      (fetchMore n).2 = ((10000 : Int), (12000 : Int))) := by
  cases n with
  | mk pa nm nl d sz md pm ow all vis fi ss =>
    refine ⟨rfl, Nat.min_le_right _ _, ?_, ?_, ?_, rfl, rfl, ?_⟩
    · intro h
      have h2 : fi < vis.length := of_decide_eq_true h
      exact le_min (Nat.le_add_right _ _) (le_of_lt h2)
    · intro h
      exact le_min (Nat.le_add_right _ _) h
    · show min (fi + BATCH) vis.length ≤ min (min (fi + BATCH) vis.length + BATCH) vis.length
      exact le_min (Nat.le_add_right _ _) (Nat.min_le_right _ _)
    · intro h1 h2
      subst h2
      have h1b : vis.length = 12001 := h1
      show min (10000 + BATCH) vis.length = 12001 ∧
        (((10000 : Nat) : Int), ((min (10000 + BATCH) vis.length : Nat) : Int) - 1)
          = ((10000 : Int), (12000 : Int))
      rw [h1b]
      exact ⟨by decide, by decide⟩

/-- C8 witness: the 12001-children scenario evaluated on a concrete node. -/
theorem c8_witness :
    (fetchMore c8big).1.fetched_items = 12001 ∧
    (fetchMore c8big).2 = ((10000 : Int), (12000 : Int)) :=
  (c8_fetch_monotone c8big).2.2.2.2.2.2.2
    (by
      show (List.replicate 12001
          (FSNode.mkNew ["big", "f"] 1 "2024-01-01 00:00" "-rw-r--r--" "u:g")).length = 12001
      rw [List.length_replicate])
    rfl

/-- C5 (amended): invoking sort with an unknown criterion on a node whose
visible_children is nonempty (so the key function runs at least once) and
whose cached sort state differs from the requested spec fails with the
ValueError of the source, before any mutation (the node value is untouched,
as the error result carries no updated node).  With no visible children the
call instead succeeds vacuously and even records the unknown spec (see the
counterexample). -/
theorem c5_amended (n : FSNode) (s : Sorting)
    (h1 : colKnown s.column = false)
    (h2 : n.visible_children ≠ [])
    (h3 : n.current_sort_state ≠ some s) :
    sortNode n s = Except.error ("Unknown column index " ++ toString s.column) := by
  rw [sortNode, if_neg h3]
  rw [if_neg (by rw [h1]; exact Bool.false_ne_true)]
  rw [if_neg ?_]
  intro hempty
  exact h2 (List.isEmpty_iff.mp hempty)

/-- C5 witness: column 99 on a node with one visible child fails with the
ValueError message of the source. -/
theorem c5_witness :
    colKnown (99 : Int) = false ∧
    sortNode c5node ⟨99, SortOrder.Ascending⟩
      = Except.error ("Unknown column index " ++ toString (99 : Int)) :=
  ⟨by decide,
   c5_amended c5node ⟨99, SortOrder.Ascending⟩ (by decide)
     (by
       show FSNode.mkNew ["x", "y"] 0 "" "-rw-r--r--" "u:g" :: [] ≠ []
       exact List.cons_ne_nil _ _)
     (by decide)⟩

/-- C5 counterexample: the claim that an unknown sort criterion always fails
with an InvalidArgument-class error is false on a node with no visible
children: CPython computes sort keys once per element, so with zero elements
the unknown column raises nothing, the call succeeds, and the unknown spec is
even recorded as the new cached sort state. -/
theorem c5_counterexample :
    (sortNode c5empty ⟨99, SortOrder.Ascending⟩).map FSNode.current_sort_state
      = Except.ok (some ⟨99, SortOrder.Ascending⟩) := by rfl

theorem pairwiseB_of_all {α : Type} (f : α → α → Bool) (h : ∀ a b, f a b = true) :
    ∀ l : List α, pairwiseB f l = true
  | [] => rfl
  | x :: xs => by
    rw [pairwiseB, pairwiseB_of_all f h xs, Bool.and_true, List.all_eq_true]
    intro a _
    exact h x a

theorem sizeKeysComp (rev : Bool) (a b : FSNode) :
    keyComp (sortKeyF 1 rev a) (sortKeyF 1 rev b) = true := by
  cases ha : a.is_dir <;> cases hb : b.is_dir <;> cases rev <;>
    simp [sortKeyF, keyComp, skeyComp, ha, hb]

/-- C10: sorting by Size never compares a string key with an integer key:
the boolean primary key (is_dir == reverse) differs whenever one node is a
directory and the other is not, so the string secondary key of a directory
is never compared against the integer secondary key of a file; every pair of
Size keys is Python-comparable, and consequently a Size sort always
completes with a result, in either direction, on every node. -/
theorem c10_size_sort_total (rev : Bool) (a b n : FSNode) (d : SortOrder) :
    ((a.is_dir == b.is_dir) || ((sortKeyF 1 rev a).1 != (sortKeyF 1 rev b).1)) = true ∧
    keyComp (sortKeyF 1 rev a) (sortKeyF 1 rev b) = true ∧
    ∃ m, sortNode n ⟨1, d⟩ = Except.ok m := by
  refine ⟨?_, sizeKeysComp rev a b, ?_⟩
  · cases ha : a.is_dir <;> cases hb : b.is_dir <;> cases rev <;>
      simp [sortKeyF, ha, hb]
  · by_cases hg : n.current_sort_state = some ⟨1, d⟩
    · exact ⟨n, by rw [sortNode, if_pos hg]⟩
    · rw [sortNode, if_neg hg]
      rw [if_pos (show colKnown (Sorting.mk 1 d).column = true from rfl)]
      rw [if_pos (pairwiseB_of_all _ (fun x y => sizeKeysComp _ x y) _)]
      exact ⟨_, rfl⟩

/-- C6: a second sort call with the same spec and no intervening mutation is
a no-op: whenever the first call succeeds with result m, the cached sort
state of m equals the spec, so sorting m again returns m unchanged. -/
theorem c6_sort_guard_idempotent (n : FSNode) (s : Sorting) (m : FSNode)
    (h : sortNode n s = Except.ok m) : sortNode m s = Except.ok m := by
  by_cases hg : n.current_sort_state = some s
  · rw [sortNode, if_pos hg] at h
    cases h
    rw [sortNode, if_pos hg]
  · rw [sortNode, if_neg hg] at h
    split at h
    · split at h
      · cases h
        rw [sortNode, if_pos (setVisSort_state _ _ _)]
      · exact Except.noConfusion h
    · split at h
      · cases h
        rw [sortNode, if_pos (setVisSort_state _ _ _)]
      · exact Except.noConfusion h

/-- C6 witness: sorting the already-sorted demo node again returns it
unchanged. -/
theorem c6_witness : sortNode c6sorted ⟨0, SortOrder.Ascending⟩ = Except.ok c6sorted :=
  c6_sort_guard_idempotent c6node ⟨0, SortOrder.Ascending⟩ c6sorted (by rfl)

theorem charsLe_total : ∀ a b : List Char, charsLe a b = true ∨ charsLe b a = true
  | [], _ => Or.inl rfl
  | _ :: _, [] => Or.inr rfl
  | a :: as, b :: bs => by
    rw [charsLe, charsLe]
    rcases Nat.lt_trichotomy a.toNat b.toNat with h | h | h
    · left
      rw [if_pos h]
    · rw [if_neg (by omega), if_neg (by omega), if_neg (by omega), if_neg (by omega)]
      exact charsLe_total as bs
    · right
      rw [if_pos h]

theorem charsLe_trans : ∀ a b c : List Char,
    charsLe a b = true → charsLe b c = true → charsLe a c = true
  | [], _, _, _, _ => rfl
  | _ :: _, [], _, h1, _ => by rw [charsLe] at h1; exact absurd h1 (by simp)
  | _ :: _, _ :: _, [], _, h2 => by rw [charsLe] at h2; exact absurd h2 (by simp)
  | a :: as, b :: bs, c :: cs, h1, h2 => by
    rw [charsLe] at h1 h2 ⊢
    rcases Nat.lt_trichotomy a.toNat b.toNat with hab | hab | hab
    · rcases Nat.lt_trichotomy b.toNat c.toNat with hbc | hbc | hbc
      · rw [if_pos (by omega)]
      · rw [if_pos (by omega)]
      · rw [if_neg (by omega), if_pos (by omega)] at h2
        exact absurd h2 (by simp)
    · rw [if_neg (by omega), if_neg (by omega)] at h1
      rcases Nat.lt_trichotomy b.toNat c.toNat with hbc | hbc | hbc
      · rw [if_pos (by omega)]
      · rw [if_neg (by omega), if_neg (by omega)] at h2
        rw [if_neg (by omega), if_neg (by omega)]
        exact charsLe_trans as bs cs h1 h2
      · rw [if_neg (by omega), if_pos (by omega)] at h2
        exact absurd h2 (by simp)
    · rw [if_neg (by omega), if_pos (by omega)] at h1
      exact absurd h1 (by simp)

theorem skeyLeB_total : ∀ a b : SKey, skeyLeB a b = true ∨ skeyLeB b a = true
  | .s x, .s y => charsLe_total x.data y.data
  | .n x, .n y => by
    rw [skeyLeB, skeyLeB]
    simp only [decide_eq_true_eq]
    omega
  | .s _, .n _ => Or.inl rfl
  | .n _, .s _ => Or.inr rfl

theorem skeyLeB_trans : ∀ a b c : SKey,
    skeyLeB a b = true → skeyLeB b c = true → skeyLeB a c = true
  | .s _, .s _, .s _, h1, h2 => charsLe_trans _ _ _ h1 h2
  | .s _, .s _, .n _, _, _ => rfl
  | .s _, .n _, .s _, _, h2 => by exact absurd h2 (by simp [skeyLeB])
  | .s _, .n _, .n _, _, _ => rfl
  | .n _, .n _, .n _, h1, h2 => by
    rw [skeyLeB] at h1 h2 ⊢
    simp only [decide_eq_true_eq] at h1 h2 ⊢
    omega
  | .n _, .s _, _, h1, _ => by exact absurd h1 (by simp [skeyLeB])
  | .n _, .n _, .s _, _, h2 => by exact absurd h2 (by simp [skeyLeB])

theorem keyLeB_total (a b : Bool × SKey) : keyLeB a b = true ∨ keyLeB b a = true := by
  obtain ⟨b1, k1⟩ := a
  obtain ⟨b2, k2⟩ := b
  by_cases h : b1 = b2
  · subst h
    rw [keyLeB, keyLeB, if_pos rfl, if_pos rfl]
    exact skeyLeB_total k1 k2
  · rw [keyLeB, keyLeB, if_neg h, if_neg (Ne.symm h)]
    cases b1 <;> cases b2 <;> simp_all [boolLt]

theorem keyLeB_trans (a b c : Bool × SKey)
    (h1 : keyLeB a b = true) (h2 : keyLeB b c = true) : keyLeB a c = true := by
  obtain ⟨b1, k1⟩ := a
  obtain ⟨b2, k2⟩ := b
  obtain ⟨b3, k3⟩ := c
  cases b1 <;> cases b2 <;> cases b3 <;>
    simp_all [keyLeB, boolLt] <;>
    exact skeyLeB_trans _ _ _ h1 h2

theorem sortLe_total (col : Int) (rev : Bool) (a b : FSNode) :
    sortLe col rev a b = true ∨ sortLe col rev b a = true := by
  cases rev
  · simpa [sortLe] using keyLeB_total (sortKeyF col false a) (sortKeyF col false b)
  · simpa [sortLe] using keyLeB_total (sortKeyF col true b) (sortKeyF col true a)

theorem sortLe_trans (col : Int) (rev : Bool) (a b c : FSNode)
    (h1 : sortLe col rev a b = true) (h2 : sortLe col rev b c = true) :
    sortLe col rev a c = true := by
  cases rev
  · simp only [sortLe, Bool.false_eq_true, if_false] at h1 h2 ⊢
    exact keyLeB_trans _ _ _ h1 h2
  · simp only [sortLe, if_true] at h1 h2 ⊢
    exact keyLeB_trans _ _ _ h2 h1

theorem nameKeysComp (rev : Bool) (a b : FSNode) :
    keyComp (sortKeyF 0 rev a) (sortKeyF 0 rev b) = true := by
  simp [sortKeyF, keyComp, skeyComp]

/-- Unfolding of a Name sort that actually runs (cached state differs from
the spec): the visible children are stably sorted under the sort_key
comparator and the spec is recorded. -/
theorem sortNode_ok_name (n : FSNode) (d : SortOrder)
    (hg : n.current_sort_state ≠ some ⟨0, d⟩) :
    sortNode n ⟨0, d⟩ = Except.ok (n.setVisSort
      (List.insertionSort
        (fun a b => sortLe 0 (d == SortOrder.Descending) a b = true)
        n.visible_children)
      (some ⟨0, d⟩)) := by
  rw [sortNode, if_neg hg]
  rw [if_pos (show colKnown (Sorting.mk 0 d).column = true from rfl)]
  rw [if_pos (pairwiseB_of_all _ (fun x y => nameKeysComp _ x y) _)]

theorem sortLe_nameOrd (d : SortOrder) (a b : FSNode)
    (h : sortLe 0 (d == SortOrder.Descending) a b = true) : nameOrdOK d a b := by
  cases d
  · cases ha : a.is_dir <;> cases hb : b.is_dir <;>
      simp_all [sortLe, sortKeyF, keyLeB, skeyLeB, boolLt, nameOrdOK, strLe]
  · cases ha : a.is_dir <;> cases hb : b.is_dir <;>
      simp_all [sortLe, sortKeyF, keyLeB, skeyLeB, boolLt, nameOrdOK, strLe]

/-- C1 (amended): a Name sort that actually runs produces a permutation of
the visible children in which a file is never followed by a directory — the
directories form one contiguous block placed first in BOTH directions — with
lower-cased names ascending inside each block for Ascending and descending
inside each block for Descending; all_children is untouched.  The frozen
claim instead asserts that descending places the folder block last; the
counterexample shows the code keeps it first (the key is is_dir == reverse
under a reversed comparison, and the comment in the source says Folders
always first). -/
theorem c1_amended (n : FSNode) (d : SortOrder) (m : FSNode)
    (h1 : n.current_sort_state ≠ some ⟨0, d⟩)
    (h2 : sortNode n ⟨0, d⟩ = Except.ok m) :
    m.visible_children.Perm n.visible_children ∧
    m.visible_children.Pairwise (nameOrdOK d) ∧
    m.all_children = n.all_children := by
  rw [sortNode_ok_name n d h1] at h2
  injection h2 with h2
  subst h2
  refine ⟨?_, ?_, setVisSort_all _ _ _⟩
  · rw [setVisSort_vis]
    exact List.perm_insertionSort _ _
  · rw [setVisSort_vis]
    haveI ht : IsTotal FSNode (fun a b => sortLe 0 (d == SortOrder.Descending) a b = true) :=
      ⟨fun a b => sortLe_total _ _ a b⟩
    haveI htr : IsTrans FSNode (fun a b => sortLe 0 (d == SortOrder.Descending) a b = true) :=
      ⟨fun a b c hab hbc => sortLe_trans _ _ a b c hab hbc⟩
    have hs := List.sorted_insertionSort
      (fun a b => sortLe 0 (d == SortOrder.Descending) a b = true) n.visible_children
    exact List.Pairwise.imp (fun h => sortLe_nameOrd d _ _ h) hs

/-- C1 witness: the amended theorem evaluated on a directory holding a file
f and a subdirectory d, sorted by Name descending. -/
theorem c1_witness :
    c1node.current_sort_state ≠ some ⟨0, SortOrder.Descending⟩ ∧
    (c1out.visible_children.Perm c1node.visible_children ∧
     c1out.visible_children.Pairwise (nameOrdOK SortOrder.Descending) ∧
     c1out.all_children = c1node.all_children) :=
  ⟨by decide, c1_amended c1node SortOrder.Descending c1out (by decide) (by rfl)⟩

/-- C1 counterexample: descending Name sort on a directory holding file f
and subdirectory d yields the directory first and the file last, refuting
the frozen claim that descending places the folder block last. -/
theorem c1_counterexample :
    (sortNode c1node ⟨0, SortOrder.Descending⟩).map
      (fun m => m.visible_children.map (fun c => (c.is_dir, c.name_lower)))
      = Except.ok [(true, "d"), (false, "f")] := by rfl

theorem applyFilter_is_dir (p : String) (t : FSNode) : (applyFilter p t).is_dir = t.is_dir := by
  cases t
  rfl

theorem applyFilterL_idem_of (p : String) :
    ∀ l : List FSNode, (∀ c ∈ l, applyFilter p (applyFilter p c) = applyFilter p c) →
      applyFilterL p (applyFilterL p l) = applyFilterL p l
  | [], _ => rfl
  | c :: cs, h => by
    have tail := applyFilterL_idem_of p cs (fun x hx => h x (List.mem_cons_of_mem _ hx))
    rw [applyFilterL, applyFilterL, tail]
    cases hd : c.is_dir
    · simp [hd]
    · simp [hd, applyFilter_is_dir, h c (List.mem_cons_self _ _)]

theorem applyFilter_idem_aux (p : String) :
    ∀ (fuel : Nat) (t : FSNode), sizeOf t ≤ fuel →
      applyFilter p (applyFilter p t) = applyFilter p t := by
  intro fuel
  induction fuel with
  | zero =>
    intro t ht
    cases t
    simp only [FSNode.mk.sizeOf_spec] at ht
    omega
  | succ k ih =>
    intro t ht
    cases t with
    | mk pa n nl d sz md pm ow all vis fi ss =>
      have hall : ∀ c ∈ all, applyFilter p (applyFilter p c) = applyFilter p c := by
        intro c hc
        apply ih
        have h1 : sizeOf c < sizeOf all := List.sizeOf_lt_of_mem hc
        simp only [FSNode.mk.sizeOf_spec] at ht
        omega
      simp only [applyFilter]
      rw [applyFilterL_idem_of p all hall]

/-- C7: apply_filter is idempotent: applying the same pattern twice returns
the very same tree as applying it once, so in particular the visible_children
list at every node is the same. -/
theorem c7_filter_idempotent (p : String) (t : FSNode) :
    applyFilter p (applyFilter p t) = applyFilter p t ∧
    (treeNodes (applyFilter p (applyFilter p t))).map FSNode.visible_children
      = (treeNodes (applyFilter p t)).map FSNode.visible_children := by
  have h := applyFilter_idem_aux p (sizeOf t) t (le_refl _)
  exact ⟨h, by rw [h]⟩

theorem mem_treeNodesL_of (l : List FSNode) (c : FSNode) (hc : c ∈ l)
    (nd : FSNode) (hnd : nd ∈ treeNodes c) : nd ∈ treeNodesL l := by
  induction l with
  | nil => cases hc
  | cons x xs ih =>
    rw [treeNodesL]
    rcases List.mem_cons.mp hc with h | h
    · subst h
      exact List.mem_append_left _ hnd
    · exact List.mem_append_right _ (ih h)

theorem treeNodesL_mem : ∀ (l : List FSNode) (nd : FSNode),
    nd ∈ treeNodesL l → ∃ c ∈ l, nd ∈ treeNodes c := by
  intro l
  induction l with
  | nil => intro nd h; rw [treeNodesL] at h; cases h
  | cons x xs ih =>
    intro nd h
    rw [treeNodesL] at h
    rcases List.mem_append.mp h with h | h
    · exact ⟨x, List.mem_cons_self _ _, h⟩
    · obtain ⟨c, hc, hnd⟩ := ih nd h
      exact ⟨c, List.mem_cons_of_mem _ hc, hnd⟩

theorem self_mem_treeNodes (t : FSNode) : t ∈ treeNodes t := by
  cases t
  rw [treeNodes]
  exact List.mem_cons_self _ _

theorem mem_treeNodes_trans (t c nd : FSNode) (hc : c ∈ t.all_children)
    (hnd : nd ∈ treeNodes c) : nd ∈ treeNodes t := by
  cases t with
  | mk pa n nl d sz md pm ow all vis fi ss =>
    rw [treeNodes]
    exact List.mem_cons_of_mem _ (mem_treeNodesL_of all c hc nd hnd)

theorem wfTreeB_sub (t c : FSNode) (hw : wfTreeB t = true) (hc : c ∈ t.all_children) :
    wfTreeB c = true := by
  rw [wfTreeB, List.all_eq_true] at hw ⊢
  intro nd hnd
  exact hw nd (mem_treeNodes_trans t c nd hc hnd)

theorem wfTreeB_leaf (t nd : FSNode) (hw : wfTreeB t = true) (hnd : nd ∈ treeNodes t)
    (hd : nd.is_dir = false) : nd.all_children = [] ∧ nd.visible_children = [] := by
  rw [wfTreeB, List.all_eq_true] at hw
  have h := hw nd hnd
  rw [hd, Bool.false_or, Bool.and_eq_true] at h
  exact ⟨List.isEmpty_iff.mp h.1, List.isEmpty_iff.mp h.2⟩

theorem mem_applyFilterL (p : String) : ∀ (l : List FSNode) (x : FSNode),
    x ∈ applyFilterL p l → ∃ c ∈ l, x = if c.is_dir then applyFilter p c else c := by
  intro l
  induction l with
  | nil => intro x h; rw [applyFilterL] at h; cases h
  | cons c cs ih =>
    intro x h
    rw [applyFilterL] at h
    rcases List.mem_cons.mp h with h | h
    · exact ⟨c, List.mem_cons_self _ _, h⟩
    · obtain ⟨c2, hc2, hx⟩ := ih x h
      exact ⟨c2, List.mem_cons_of_mem _ hc2, hx⟩

theorem c4_aux (p : String) :
    ∀ (fuel : Nat) (t : FSNode), sizeOf t ≤ fuel → wfTreeB t = true →
      ∀ nd ∈ treeNodes (applyFilter p t), nd.visible_children = visSpec p nd.all_children := by
  intro fuel
  induction fuel with
  | zero =>
    intro t ht
    cases t
    simp only [FSNode.mk.sizeOf_spec] at ht
    omega
  | succ k ih =>
    intro t ht hw nd hnd
    cases t with
    | mk pa n nl d sz md pm ow all vis fi ss =>
      simp only [applyFilter, treeNodes] at hnd
      rcases List.mem_cons.mp hnd with h | h
      · subst h
        rfl
      · obtain ⟨x, hx, hnd2⟩ := treeNodesL_mem _ nd h
        obtain ⟨c, hc, hxc⟩ := mem_applyFilterL p all x hx
        have hsz : sizeOf c ≤ k := by
          have h1 : sizeOf c < sizeOf all := List.sizeOf_lt_of_mem hc
          simp only [FSNode.mk.sizeOf_spec] at ht
          omega
        have hwc : wfTreeB c = true :=
          wfTreeB_sub (FSNode.mk pa n nl d sz md pm ow all vis fi ss) c hw hc
        cases hd : c.is_dir
        · rw [if_neg (by rw [hd]; exact Bool.false_ne_true)] at hxc
          rw [hxc] at hnd2
          obtain ⟨ha, hv⟩ := wfTreeB_leaf c c hwc (self_mem_treeNodes c) hd
          have hndc : nd = c := by
            cases c with
            | mk xpa xn xnl xd xsz xmd xpm xow xall xvis xfi xss =>
              have hxa : xall = [] := ha
              subst hxa
              rw [treeNodes, treeNodesL] at hnd2
              rcases List.mem_cons.mp hnd2 with h2 | h2
              · exact h2
              · cases h2
          subst hndc
          rw [hv, ha]
          rw [visSpec]
          split
          · rfl
          · rfl
        · rw [if_pos hd] at hxc
          subst hxc
          exact ih c hsz hwc nd hnd2

/-- C4 (amended): after applyFilter(root, pattern) on a tree in which only
directories have children (which holds unless an entry arrived below a path
already occupied by a regular file), EVERY node satisfies the claim: with an
empty pattern its visible_children equals its all_children in order, and
otherwise visible_children is exactly the sublist of all_children whose
members are directories or have the pattern inside their lower-cased name;
the recursion reaches every directory child whether visible or not.  The
frozen claim without the only-directories-have-children restriction fails:
apply_filter does not recurse into non-directory children, so a file node
with children keeps its stale visible_children (see the counterexample). -/
theorem c4_amended (p : String) (t : FSNode) (hw : wfTreeB t = true) :
    ∀ nd ∈ treeNodes (applyFilter p t), nd.visible_children = visSpec p nd.all_children :=
  c4_aux p (sizeOf t) t (le_refl _) hw

/-- C4 witness: the amended theorem evaluated at the root of a concrete
well-formed tree with pattern a. -/
theorem c4_witness :
    wfTreeB c4tree = true ∧
    (applyFilter "a" c4tree).visible_children
      = visSpec "a" (applyFilter "a" c4tree).all_children :=
  ⟨by decide, c4_amended "a" c4tree (by decide) (applyFilter "a" c4tree)
    (self_mem_treeNodes _)⟩

/-- C4 counterexample: build the tree of a file entry at path a followed by
an entry at path a/b (the child attaches under the regular file a), then
filter with pattern zzz.  The node at child position 0 (the file a) is not a
directory, still lists a/b among its visible children, yet the claimed
recomputation (visSpec, the exactly-the-matching-children list) is empty: the
claim fails at that node because apply_filter never recurses into
non-directory children. -/
theorem c4_counterexample :
    (getAt c4bad [0]).map (fun nd =>
        (nd.is_dir, nd.visible_children.map FSNode.path,
         (visSpec "zzz" nd.all_children).map FSNode.path))
      = some (false, [["a", "b"]], []) := by rfl

theorem nodePathsL_append : ∀ l1 l2 : List FSNode,
    nodePathsL (l1 ++ l2) = nodePathsL l1 ++ nodePathsL l2
  | [], l2 => by rw [List.nil_append, nodePathsL]; rfl
  | c :: cs, l2 => by
    rw [List.cons_append, nodePathsL, nodePathsL, nodePathsL_append cs l2,
      List.append_assoc]

theorem nodePaths_eq (t : FSNode) : nodePaths t = t.path :: nodePathsL t.all_children := by
  cases t
  rfl

theorem append_child_path (t c : FSNode) : (t.append_child c).path = t.path := by
  cases t
  rfl

theorem append_child_all (t c : FSNode) :
    (t.append_child c).all_children = t.all_children ++ [c] := by
  cases t
  rfl

theorem setAll_path (t : FSNode) (l : List FSNode) : (t.setAll l).path = t.path := by
  cases t
  rfl

theorem setAll_all (t : FSNode) (l : List FSNode) : (t.setAll l).all_children = l := by
  cases t
  rfl

theorem nodePaths_append_child (t c : FSNode) :
    nodePaths (t.append_child c) = nodePaths t ++ nodePaths c := by
  rw [nodePaths_eq, nodePaths_eq, append_child_path, append_child_all, nodePathsL_append,
    nodePathsL, nodePathsL, List.append_nil, List.cons_append]

theorem nodePaths_setAll (t : FSNode) (l : List FSNode) :
    nodePaths (t.setAll l) = t.path :: nodePathsL l := by
  rw [nodePaths_eq, setAll_path, setAll_all]

theorem nodePaths_mkNew (p : List String) (sz : Nat) (md pm ow : String) :
    nodePaths (FSNode.mkNew p sz md pm ow) = [p] := rfl

theorem mkNew_path (p : List String) (sz : Nat) (md pm ow : String) :
    (FSNode.mkNew p sz md pm ow).path = p := rfl

/-- Appending somewhere in the tree preserves every existing address up to
the node path sitting there (the node itself may have gained a child or lost
its cached sort state, its path never changes). -/
theorem getAt_appendAt_path : ∀ (a : Addr) (t c : FSNode) (b : Addr) (nd : FSNode),
    getAt t b = some nd →
    ∃ nd2, getAt (appendAt t a c) b = some nd2 ∧ nd2.path = nd.path := by
  intro a
  induction a with
  | nil =>
    intro t c b nd hb
    cases b with
    | nil =>
      cases hb
      exact ⟨t.append_child c, rfl, append_child_path t c⟩
    | cons j bs =>
      rw [getAt] at hb
      cases hj : t.all_children[j]? with
      | none => rw [hj] at hb; cases hb
      | some cj =>
        rw [hj] at hb
        have hlt : j < t.all_children.length := by
          rcases List.getElem?_eq_some_iff.mp hj with ⟨h, _⟩
          exact h
        refine ⟨nd, ?_, rfl⟩
        rw [appendAt, getAt, append_child_all, List.getElem?_append_left hlt, hj, hb]
  | cons i rest ih =>
    intro t c b nd hb
    rw [appendAt]
    cases hi : t.all_children[i]? with
    | none => exact ⟨nd, hb, rfl⟩
    | some ci =>
      have hilt : i < t.all_children.length := by
        rcases List.getElem?_eq_some_iff.mp hi with ⟨h, _⟩
        exact h
      cases b with
      | nil =>
        cases hb
        exact ⟨_, rfl, setAll_path _ _⟩
      | cons j bs =>
        rw [getAt] at hb
        cases hj : t.all_children[j]? with
        | none => rw [hj] at hb; cases hb
        | some cj =>
          rw [hj] at hb
          by_cases hij : j = i
          · subst hij
            rw [hj] at hi
            injection hi with hi
            subst hi
            obtain ⟨nd2, h1, h2⟩ := ih cj c bs nd hb
            refine ⟨nd2, ?_, h2⟩
            rw [getAt, setAll_all, List.getElem?_set_self hilt]
            exact h1
          · refine ⟨nd, ?_, rfl⟩
            rw [getAt, setAll_all, List.getElem?_set_ne (fun h => hij h.symm), hj, hb]

/-- The child appended at a valid address a sits at address a followed by
the old child count of the node at a. -/
theorem getAt_appendAt_new : ∀ (a : Addr) (t c nd : FSNode),
    getAt t a = some nd →
    getAt (appendAt t a c) (a ++ [nd.all_children.length]) = some c := by
  intro a
  induction a with
  | nil =>
    intro t c nd h
    cases h
    rw [List.nil_append, appendAt, getAt, append_child_all, List.getElem?_concat_length]
    rfl
  | cons i rest ih =>
    intro t c nd h
    rw [getAt] at h
    cases hi : t.all_children[i]? with
    | none => rw [hi] at h; cases h
    | some ci =>
      rw [hi] at h
      have hilt : i < t.all_children.length := by
        rcases List.getElem?_eq_some_iff.mp hi with ⟨hl, _⟩
        exact hl
      rw [appendAt, hi, List.cons_append, getAt, setAll_all,
        List.getElem?_set_self hilt]
      exact ih ci c nd h

theorem perm_append_swap (A B C : List (List String)) :
    ((A ++ B) ++ C).Perm ((A ++ C) ++ B) := by
  rw [List.append_assoc, List.append_assoc]
  exact List.Perm.append_left A List.perm_append_comm

theorem nodePathsL_set_perm : ∀ (l : List FSNode) (i : Nat) (ci x : FSNode)
    (ex : List (List String)),
    l[i]? = some ci → (nodePaths x).Perm (nodePaths ci ++ ex) →
    (nodePathsL (l.set i x)).Perm (nodePathsL l ++ ex) := by
  intro l
  induction l with
  | nil =>
    intro i ci x ex h
    rw [List.getElem?_nil] at h
    cases h
  | cons c cs ih =>
    intro i ci x ex h hx
    cases i with
    | zero =>
      rw [List.getElem?_cons_zero] at h
      injection h with h
      subst h
      rw [List.set_cons_zero, nodePathsL, nodePathsL]
      have h1 : (nodePaths x ++ nodePathsL cs).Perm ((nodePaths c ++ ex) ++ nodePathsL cs) :=
        hx.append_right _
      exact h1.trans (perm_append_swap _ _ _)
    | succ i2 =>
      rw [List.getElem?_cons_succ] at h
      rw [List.set_cons_succ, nodePathsL, nodePathsL, List.append_assoc]
      exact List.Perm.append_left _ (ih i2 ci x ex h hx)

/-- Appending at a valid address changes the multiset of node paths by
exactly the paths of the appended subtree. -/
theorem nodePaths_appendAt : ∀ (a : Addr) (t c nd : FSNode),
    getAt t a = some nd →
    (nodePaths (appendAt t a c)).Perm (nodePaths t ++ nodePaths c) := by
  intro a
  induction a with
  | nil =>
    intro t c nd _
    rw [appendAt, nodePaths_append_child]
  | cons i rest ih =>
    intro t c nd h
    rw [getAt] at h
    cases hi : t.all_children[i]? with
    | none => rw [hi] at h; cases h
    | some ci =>
      rw [hi] at h
      rw [appendAt, hi, nodePaths_setAll, nodePaths_eq, List.cons_append]
      exact List.Perm.cons _ (nodePathsL_set_perm _ i ci _ _ hi (ih ci c nd h))

theorem findAddr_some_mem : ∀ (m : List (List String × Addr)) (p : List String) (a : Addr),
    findAddr p m = some a → (p, a) ∈ m := by
  intro m
  induction m with
  | nil => intro p a h; cases h
  | cons qb rest ih =>
    intro p a h
    obtain ⟨q, b⟩ := qb
    rw [findAddr] at h
    by_cases hq : q = p
    · rw [if_pos hq] at h
      injection h with h
      subst hq h
      exact List.mem_cons_self _ _
    · rw [if_neg hq] at h
      exact List.mem_cons_of_mem _ (ih p a h)

theorem findAddr_none_not_mem : ∀ (m : List (List String × Addr)) (p : List String),
    findAddr p m = none → ∀ a, (p, a) ∉ m := by
  intro m
  induction m with
  | nil => intro p _ a h; cases h
  | cons qb rest ih =>
    intro p h a hmem
    obtain ⟨q, b⟩ := qb
    rw [findAddr] at h
    by_cases hq : q = p
    · rw [if_pos hq] at h
      cases h
    · rw [if_neg hq] at h
      rcases List.mem_cons.mp hmem with h2 | h2
      · have : q = p := (congrArg Prod.fst h2).symm
        exact hq this
      · exact ih p h a h2

theorem leadsB_refl : ∀ l : List String, leadsB l l = true
  | [] => rfl
  | a :: as => by
    rw [leadsB, leadsB_refl as]
    simp

theorem leadsB_take : ∀ (l : List String) (k : Nat), leadsB (l.take k) l = true
  | [], k => by rw [List.take_nil]; rfl
  | a :: as, 0 => rfl
  | a :: as, k + 1 => by
    rw [List.take_succ_cons, leadsB, leadsB_take as k]
    simp

theorem mem_ancestors (p : List String) (q : List String) (hq : q ∈ ancestors p) :
    ∃ k, k < p.length ∧ q = p.take k := by
  rw [ancestors] at hq
  obtain ⟨k, hk, hq2⟩ := List.mem_map.mp hq
  exact ⟨k, List.mem_range.mp hk, hq2.symm⟩

/-- The starting builder state (fresh root, node_map holding the root)
satisfies the invariant with no processed entries. -/
theorem binv_init : BInv { tree := rootNew, nmap := [([], [])] } [] := by
  have hroot : nodePaths rootNew = [[]] := rfl
  constructor
  · intro pr hpr
    rw [List.mem_singleton.mp hpr]
    exact ⟨rootNew, rfl, rfl⟩
  · intro p
    rw [hroot]
    constructor
    · rintro ⟨a, ha⟩
      have h2 := List.mem_singleton.mp ha
      have : p = [] := congrArg Prod.fst h2
      rw [this]
      exact List.mem_singleton.mpr rfl
    · intro hp
      refine ⟨[], ?_⟩
      rw [List.mem_singleton.mp hp]
      exact List.mem_singleton.mpr rfl
  · rw [hroot]
    exact List.nodup_singleton _
  · intro p hp
    rw [hroot] at hp
    exact Or.inl (List.mem_singleton.mp hp)
  · intro e he
    cases he

/-- One ancestor-resolution step preserves the structural parts of the
builder invariant; the resulting node paths are the old ones plus (possibly)
the resolved ancestor, and the returned address is valid. -/
theorem stepAnc_inv (s : BState) (cur : Addr) (anc : List String) (s2 : BState) (a2 : Addr)
    (hstep : stepAnc (s, cur) anc = (s2, a2))
    (hmv : ∀ pr ∈ s.nmap, ∃ nd, getAt s.tree pr.2 = some nd ∧ nd.path = pr.1)
    (hki : ∀ p : List String, (∃ a, (p, a) ∈ s.nmap) ↔ p ∈ nodePaths s.tree)
    (hnd : (nodePaths s.tree).Nodup)
    (hcur : ∃ N, getAt s.tree cur = some N) :
    (∀ pr ∈ s2.nmap, ∃ nd, getAt s2.tree pr.2 = some nd ∧ nd.path = pr.1) ∧
    (∀ p : List String, (∃ a, (p, a) ∈ s2.nmap) ↔ p ∈ nodePaths s2.tree) ∧
    (nodePaths s2.tree).Nodup ∧
    (∃ M, getAt s2.tree a2 = some M) ∧
    (∀ p, p ∈ nodePaths s2.tree ↔ (p ∈ nodePaths s.tree ∨ p = anc)) := by
  obtain ⟨N, hN⟩ := hcur
  simp only [stepAnc] at hstep
  cases hf : findAddr anc s.nmap with
  | some a =>
    rw [hf] at hstep
    injection hstep with hs ha
    subst hs
    subst ha
    have hanc : anc ∈ nodePaths s.tree := (hki anc).mp ⟨a, findAddr_some_mem _ _ _ hf⟩
    refine ⟨hmv, hki, hnd, ?_, ?_⟩
    · obtain ⟨nd, h1, _⟩ := hmv (anc, a) (findAddr_some_mem _ _ _ hf)
      exact ⟨nd, h1⟩
    · intro p
      constructor
      · exact fun h => Or.inl h
      · rintro (h | h)
        · exact h
        · rw [h]
          exact hanc
  | none =>
    rw [hf] at hstep
    have hidx : ((getAt s.tree cur).map (fun nd => nd.all_children.length)).getD 0
        = N.all_children.length := by
      rw [hN]
      rfl
    rw [hidx] at hstep
    injection hstep with hs ha
    subst hs
    subst ha
    have hnotin : anc ∉ nodePaths s.tree := by
      intro hmem
      obtain ⟨a, ha⟩ := (hki anc).mpr hmem
      exact findAddr_none_not_mem _ _ hf a ha
    have hperm : (nodePaths (appendAt s.tree cur (FSNode.mkNew anc 0 "" "" ""))).Perm
        (nodePaths s.tree ++ [anc]) := by
      have h := nodePaths_appendAt cur s.tree (FSNode.mkNew anc 0 "" "" "") N hN
      rw [nodePaths_mkNew] at h
      exact h
    have hnew : getAt (appendAt s.tree cur (FSNode.mkNew anc 0 "" "" ""))
        (cur ++ [N.all_children.length]) = some (FSNode.mkNew anc 0 "" "" "") :=
      getAt_appendAt_new cur s.tree (FSNode.mkNew anc 0 "" "" "") N hN
    refine ⟨?_, ?_, ?_, ⟨_, hnew⟩, ?_⟩
    · intro pr hpr
      rcases List.mem_cons.mp hpr with h | h
      · rw [h]
        exact ⟨FSNode.mkNew anc 0 "" "" "", hnew, rfl⟩
      · obtain ⟨nd, h1, h2⟩ := hmv pr h
        obtain ⟨nd2, h3, h4⟩ :=
          getAt_appendAt_path cur s.tree (FSNode.mkNew anc 0 "" "" "") pr.2 nd h1
        exact ⟨nd2, h3, h4.trans h2⟩
    · intro p
      rw [hperm.mem_iff, List.mem_append, List.mem_singleton]
      constructor
      · rintro ⟨a, ha⟩
        rcases List.mem_cons.mp ha with h | h
        · exact Or.inr (congrArg Prod.fst h)
        · exact Or.inl ((hki p).mp ⟨a, h⟩)
      · rintro (h | h)
        · obtain ⟨a, ha⟩ := (hki p).mpr h
          exact ⟨a, List.mem_cons_of_mem _ ha⟩
        · rw [h]
          exact ⟨cur ++ [N.all_children.length], List.mem_cons_self _ _⟩
    · refine (hperm.nodup_iff).mpr (hnd.append (List.nodup_singleton _) ?_)
      intro x hx hx2
      rw [List.mem_singleton.mp hx2] at hx
      exact hnotin hx
    · intro p
      rw [hperm.mem_iff, List.mem_append, List.mem_singleton]

/-- Folding the ancestor resolution over a list of ancestor paths preserves
the structural invariant; the final paths are the old ones plus a subset of
the resolved ancestors, and the final address is valid. -/
theorem foldAnc_inv : ∀ (ancs : List (List String)) (s : BState) (cur : Addr),
    (∀ pr ∈ s.nmap, ∃ nd, getAt s.tree pr.2 = some nd ∧ nd.path = pr.1) →
    (∀ p : List String, (∃ a, (p, a) ∈ s.nmap) ↔ p ∈ nodePaths s.tree) →
    (nodePaths s.tree).Nodup →
    (∃ N, getAt s.tree cur = some N) →
    (∀ pr ∈ (ancs.foldl stepAnc (s, cur)).1.nmap,
        ∃ nd, getAt (ancs.foldl stepAnc (s, cur)).1.tree pr.2 = some nd ∧ nd.path = pr.1) ∧
    (∀ p : List String, (∃ a, (p, a) ∈ (ancs.foldl stepAnc (s, cur)).1.nmap)
        ↔ p ∈ nodePaths (ancs.foldl stepAnc (s, cur)).1.tree) ∧
    (nodePaths (ancs.foldl stepAnc (s, cur)).1.tree).Nodup ∧
    (∃ M, getAt (ancs.foldl stepAnc (s, cur)).1.tree (ancs.foldl stepAnc (s, cur)).2 = some M) ∧
    (∀ p, p ∈ nodePaths (ancs.foldl stepAnc (s, cur)).1.tree
        ↔ (p ∈ nodePaths s.tree ∨ p ∈ ancs)) := by
  intro ancs
  induction ancs with
  | nil =>
    intro s cur hmv hki hnd hcur
    refine ⟨hmv, hki, hnd, hcur, ?_⟩
    intro p
    simp
  | cons anc rest ih =>
    intro s cur hmv hki hnd hcur
    rcases hr : stepAnc (s, cur) anc with ⟨s1, a1⟩
    obtain ⟨hmv1, hki1, hnd1, hcur1, hpi1⟩ := stepAnc_inv s cur anc s1 a1 hr hmv hki hnd hcur
    have hfold : (anc :: rest).foldl stepAnc (s, cur) = rest.foldl stepAnc (s1, a1) := by
      rw [List.foldl_cons, hr]
    rw [hfold]
    obtain ⟨hmv2, hki2, hnd2, hcur2, hpi2⟩ := ih s1 a1 hmv1 hki1 hnd1 hcur1
    refine ⟨hmv2, hki2, hnd2, hcur2, ?_⟩
    intro p
    rw [hpi2 p, hpi1 p, List.mem_cons]
    constructor
    · rintro ((h | h) | h)
      · exact Or.inl h
      · exact Or.inr (Or.inl h)
      · exact Or.inr (Or.inr h)
    · rintro (h | (h | h))
      · exact Or.inl (Or.inl h)
      · exact Or.inl (Or.inr h)
      · exact Or.inr h

/-- Ingesting one entry preserves the builder invariant, provided the entry
path is nonempty and is not a leading-segment list of any previously
processed entry path (so it cannot collide with an existing node). -/
theorem insertEntry_inv (s : BState) (done : List Entry) (e : Entry)
    (hinv : BInv s done) (hne : e.path ≠ [])
    (hfresh : ∀ e2 ∈ done, leadsB e.path e2.path = false) :
    BInv (insertEntry s e) (done ++ [e]) := by
  obtain ⟨hmv, hki, hnd, hbound, hdone⟩ := hinv
  obtain ⟨hmv1, hki1, hnd1, hM2, hpi⟩ :=
    foldAnc_inv (ancestors e.path) s [] hmv hki hnd ⟨s.tree, rfl⟩
  set sc := (ancestors e.path).foldl stepAnc (s, ([] : Addr)) with hsc
  obtain ⟨M, hM⟩ := hM2
  set leafE := FSNode.mkNew e.path e.size e.dt_mod e.perms (e.owner ++ ":" ++ e.group)
    with hleaf
  have hins : insertEntry s e =
      { tree := appendAt sc.1.tree sc.2 leafE,
        nmap := (e.path, sc.2 ++ [M.all_children.length]) :: sc.1.nmap } := by
    simp only [insertEntry]
    rw [← hsc, hM, ← hleaf]
    rfl
  have hperm : (nodePaths (appendAt sc.1.tree sc.2 leafE)).Perm
      (nodePaths sc.1.tree ++ [e.path]) := by
    have h := nodePaths_appendAt sc.2 sc.1.tree leafE M hM
    rw [hleaf, nodePaths_mkNew] at h
    rw [hleaf]
    exact h
  have hnew : getAt (appendAt sc.1.tree sc.2 leafE) (sc.2 ++ [M.all_children.length])
      = some leafE := getAt_appendAt_new sc.2 sc.1.tree leafE M hM
  have hnotin : e.path ∉ nodePaths sc.1.tree := by
    intro hmem
    rcases (hpi e.path).mp hmem with h | h
    · rcases hbound e.path h with h2 | ⟨e2, he2, _, hl⟩
      · exact hne h2
      · rw [hfresh e2 he2] at hl
        exact Bool.false_ne_true hl
    · obtain ⟨k, hk, hkq⟩ := mem_ancestors e.path _ h
      have hlen := congrArg List.length hkq
      rw [List.length_take] at hlen
      omega
  rw [hins]
  refine ⟨?_, ?_, ?_, ?_, ?_⟩
  · show ∀ pr ∈ (e.path, sc.2 ++ [M.all_children.length]) :: sc.1.nmap,
      ∃ nd, getAt (appendAt sc.1.tree sc.2 leafE) pr.2 = some nd ∧ nd.path = pr.1
    intro pr hpr
    rcases List.mem_cons.mp hpr with h | h
    · rw [h]
      exact ⟨leafE, hnew, rfl⟩
    · obtain ⟨nd, h1, h2⟩ := hmv1 pr h
      obtain ⟨nd2, h3, h4⟩ := getAt_appendAt_path sc.2 sc.1.tree leafE pr.2 nd h1
      exact ⟨nd2, h3, h4.trans h2⟩
  · show ∀ p : List String,
      (∃ a, (p, a) ∈ (e.path, sc.2 ++ [M.all_children.length]) :: sc.1.nmap)
        ↔ p ∈ nodePaths (appendAt sc.1.tree sc.2 leafE)
    intro p
    rw [hperm.mem_iff, List.mem_append, List.mem_singleton]
    constructor
    · rintro ⟨a, ha⟩
      rcases List.mem_cons.mp ha with h | h
      · exact Or.inr (congrArg Prod.fst h)
      · exact Or.inl ((hki1 p).mp ⟨a, h⟩)
    · rintro (h | h)
      · obtain ⟨a, ha⟩ := (hki1 p).mpr h
        exact ⟨a, List.mem_cons_of_mem _ ha⟩
      · rw [h]
        exact ⟨sc.2 ++ [M.all_children.length], List.mem_cons_self _ _⟩
  · show (nodePaths (appendAt sc.1.tree sc.2 leafE)).Nodup
    refine (hperm.nodup_iff).mpr (hnd1.append (List.nodup_singleton _) ?_)
    intro x hx hx2
    rw [List.mem_singleton.mp hx2] at hx
    exact hnotin hx
  · show ∀ p ∈ nodePaths (appendAt sc.1.tree sc.2 leafE),
      p = [] ∨ ∃ e2 ∈ done ++ [e], p ≠ [] ∧ leadsB p e2.path = true
    intro p hp
    rw [hperm.mem_iff, List.mem_append, List.mem_singleton] at hp
    rcases hp with hp | hp
    · rcases (hpi p).mp hp with h | h
      · rcases hbound p h with h2 | ⟨e2, he2, h3, h4⟩
        · exact Or.inl h2
        · exact Or.inr ⟨e2, List.mem_append_left _ he2, h3, h4⟩
      · obtain ⟨k, _, hkq⟩ := mem_ancestors e.path _ h
        by_cases hp0 : p = []
        · exact Or.inl hp0
        · refine Or.inr ⟨e, List.mem_append_right _ (List.mem_singleton.mpr rfl), hp0, ?_⟩
          rw [hkq]
          exact leadsB_take _ _
    · refine Or.inr ⟨e, List.mem_append_right _ (List.mem_singleton.mpr rfl), ?_, ?_⟩
      · rw [hp]
        exact hne
      · rw [hp]
        exact leadsB_refl _
  · show ∀ e2 ∈ done ++ [e], e2.path ∈ nodePaths (appendAt sc.1.tree sc.2 leafE)
    intro e2 he2
    rw [hperm.mem_iff, List.mem_append, List.mem_singleton]
    rcases List.mem_append.mp he2 with h | h
    · exact Or.inl ((hpi e2.path).mpr (Or.inl (hdone e2 h)))
    · rw [List.mem_singleton.mp h]
      exact Or.inr rfl

/-- Folding ingestion over a list of collision-free entries preserves the
builder invariant. -/
theorem buildFold_inv : ∀ (todo : List Entry) (s : BState) (done : List Entry),
    BInv s done →
    (∀ e ∈ todo, e.path ≠ []) →
    (∀ e ∈ todo, ∀ e2 ∈ done, leadsB e.path e2.path = false) →
    List.Pairwise (fun e1 e2 => leadsB e2.path e1.path = false) todo →
    BInv (todo.foldl insertEntry s) (done ++ todo) := by
  intro todo
  induction todo with
  | nil =>
    intro s done h1 _ _ _
    simpa using h1
  | cons e rest ih =>
    intro s done hinv hne hfresh hpw
    obtain ⟨hpw1, hpw2⟩ := List.pairwise_cons.mp hpw
    have hstep := insertEntry_inv s done e hinv (hne e (List.mem_cons_self _ _))
      (hfresh e (List.mem_cons_self _ _))
    have hrec := ih (insertEntry s e) (done ++ [e]) hstep
      (fun x hx => hne x (List.mem_cons_of_mem _ hx))
      (fun x hx e2 he2 => by
        rcases List.mem_append.mp he2 with h | h
        · exact hfresh x (List.mem_cons_of_mem _ hx) e2 h
        · rw [List.mem_singleton.mp h]
          exact hpw1 x hx)
      hpw2
    rw [List.append_assoc] at hrec
    exact hrec

/-- C3 (amended): each entry always creates a fresh leaf node (the collision
search in the source is commented out), so an input whose entry paths never
collide with already-existing nodes — no entry path is empty and no entry
path is a leading-segment list (a prefix, equality included) of an earlier
entry path — yields a tree in which no two nodes share a path and every
ingested entry path is present.  Without that restriction the claim is
false: an entry whose path equals an already-synthesized ancestor (or an
earlier entry) produces a second node with the same path, see the
counterexample. -/
theorem c3_amended (es : List Entry)
    (h0 : ∀ e ∈ es, e.path ≠ [])
    (h1 : List.Pairwise (fun e1 e2 => leadsB e2.path e1.path = false) es) :
    (nodePaths (loadEntries es).tree).Nodup ∧
    ∀ e ∈ es.take 300000, e.path ∈ nodePaths (loadEntries es).tree := by
  have hinv := buildFold_inv (es.take 300000) { tree := rootNew, nmap := [([], [])] } []
    binv_init
    (fun e he => h0 e (List.mem_of_mem_take he))
    (fun e _ e2 he2 => absurd he2 (List.not_mem_nil _))
    (List.Pairwise.sublist (List.take_sublist _ _) h1)
  exact ⟨hinv.nodup, fun e he => hinv.doneMem e he⟩

/-- C3 witness: two collision-free entries a/b and a/c produce a tree whose
node paths are pairwise distinct and contain both entry paths. -/
theorem c3_witness :
    (nodePaths (loadEntries [c3e1, c3e2]).tree).Nodup ∧
    c3e1.path ∈ nodePaths (loadEntries [c3e1, c3e2]).tree := by
  have h := c3_amended [c3e1, c3e2] (by decide) (by decide)
  exact ⟨h.1, h.2 c3e1 (by decide)⟩

/-- C3 counterexample: the entry a/b synthesizes an ancestor node a; the
following entry at path a collides with it, and the builder creates a second
node with path a instead of reusing the placeholder, so two nodes share a
path and the frozen uniqueness claim is false. -/
theorem c3_counterexample :
    ¬ (nodePaths (loadEntries [c3dup1, c3dup2]).tree).Nodup := by decide
